import Mathlib

/-!
Shallow embedding of the index core of the Conventry search engine
(`src/inverted_index.py`, `src/text_preprocessor.py`, `src/config.py`).

Modelling decisions:
* Python floats are modelled by `ℚ` (exact arithmetic; every claim here is
  structural, none is about rounding).
* `math.log` is an abstract parameter `lg : ℚ → ℚ`; the code only ever feeds it
  `doc_count / df + 1`, and no claim depends on properties of the logarithm.
* Python dicts are insertion-ordered association lists; `defaultdict` reads that
  can insert an entry are modelled explicitly (`ddGet`).
* The NLTK pieces of the preprocessor (`word_tokenize`, `PorterStemmer`,
  `WordNetLemmatizer`) are external library calls, not code of this repository:
  the tokenizer is modelled by whitespace splitting (the module's own documented
  fallback, which agrees with the primary tokenizer on the post-`preprocess`
  alphabet of word characters and single spaces), and the stemmer/lemmatizer are
  abstract token maps `stemF lemF : String → String`, applied in the source's
  order.  The stopword set is a parameter, as in `TextPreprocessor.__init__`.
* A document record (`doc_data`) is a `Doc`: an opaque `payload` standing for
  the raw record stored in the document table, together with `fields`, the
  output of `TextPreprocessor.process_document` on that record (an ordered list
  of (field name, processed token list) pairs).  `process_document` is a
  deterministic function of the record, so indexing consumes `fields` directly.
-/

namespace ConventrySearch

/-- First-occurrence deduplication; models iterating over a Python `set` built
from a list (the iteration order of a Python set is arbitrary; no claim depends
on it, and any fixed enumeration of the distinct elements is faithful). -/
def dedupFirst {α : Type} [DecidableEq α] : List α → List α
  | [] => []
  | a :: rest => a :: (dedupFirst rest).filter (fun b => b ≠ a)

/-- Association-list lookup, first match wins; models Python dict lookup. -/
def alookup {α β : Type} [DecidableEq α] : List (α × β) → α → Option β
  | [], _ => none
  | (k, v) :: rest, k' => if k = k' then some v else alookup rest k'

/-- A posting: `(doc_id, freq, field)` as stored in `self.index[token]`. -/
structure Posting where
  docId : Nat
  freq : ℚ
  field : String
deriving DecidableEq

/-- The processed fields of one record: `TextPreprocessor.process_document`
output, field name paired with that field's processed token list, in the
insertion order of `searchable_fields`. -/
abbrev Fields := List (String × List String)

/-- A document record: opaque raw payload plus its processed fields. -/
structure Doc where
  payload : String
  fields : Fields
deriving DecidableEq

/-- The token → postings mapping (`self.index`), an insertion-ordered dict. -/
abbrev Index := List (String × List Posting)

/-- The whole store: `self.index`, `self.documents`, `self.doc_count`. -/
structure IndexState where
  index : Index
  documents : List (Nat × Doc)
  doc_count : Nat
deriving DecidableEq

/-- The freshly constructed store of `AdvancedInvertedIndex.__init__`. -/
def emptyState : IndexState := { index := [], documents := [], doc_count := 0 }

/-- Models `config.FIELD_WEIGHTS`. -/
def FIELD_WEIGHTS : List (String × ℚ) :=
  [("title", 3), ("authors", 5/2), ("keywords", 2), ("year", 3/2), ("abstract", 1)]

/-- Models `config.FIELD_WEIGHTS.get(field, 1.0)`. -/
def fieldWeight (f : String) : ℚ := (alookup FIELD_WEIGHTS f).getD 1

/-- Models `config.STOP_WORDS`, the module's fallback stopword list. -/
def STOP_WORDS : List String :=
  ["a", "an", "and", "are", "as", "at", "be", "by", "for", "from", "has",
   "he", "in", "is", "it", "its", "of", "on", "or", "that", "the", "to",
   "was", "will", "with", "this", "but", "they", "have", "had",
   "what", "when", "where", "who", "why", "how", "all", "each", "every",
   "both", "few", "more", "most", "other", "some", "such", "no", "nor",
   "not", "only", "same", "so", "than", "too", "very", "can", "just",
   "should", "now"]

/-- A character kept by the regex class `\w` (ASCII fragment). -/
def isWordChar (c : Char) : Bool := c.isAlphanum || c = '_'

/-- Splits a character list at every separator character, keeping empty
pieces, like Python `str.split(sep)` / `re.split`; structural counterpart of
the runtime string-splitting primitive. -/
def splitChars (p : Char → Bool) : List Char → List (List Char)
  | [] => [[]]
  | c :: rest =>
    if p c then [] :: splitChars p rest
    else
      match splitChars p rest with
      | [] => [[c]]
      | piece :: pieces => (c :: piece) :: pieces

/-- Models `TextPreprocessor.preprocess`: lowercase, replace every character
that is neither a word character nor whitespace by a space
(`re.sub(r'[^\w\s]', ' ', text)`), collapse whitespace runs to single spaces
and trim (`re.sub(r'\s+', ' ', text).strip()`). -/
def preprocess (s : String) : String :=
  let lowered := s.data.map Char.toLower
  let replaced := lowered.map (fun c => if isWordChar c || c.isWhitespace then c else ' ')
  let pieces := (splitChars Char.isWhitespace replaced).filter (fun t => t ≠ [])
  ⟨List.intercalate [' '] pieces⟩

/-- Models `TextPreprocessor.tokenize` on preprocessed text: the external
NLTK tokenizer agrees with whitespace splitting on the post-`preprocess`
alphabet of word characters and single spaces, and whitespace splitting is the
method's own fallback. -/
def tokenize (s : String) : List String :=
  ((splitChars (fun c => c = ' ') s.data).filter (fun t => t ≠ [])).map String.mk

/-- Models `TextPreprocessor.remove_stopwords`: drop stopwords and tokens of
length ≤ 2. -/
def remove_stopwords (stop : List String) (ts : List String) : List String :=
  ts.filter (fun t => !(stop.contains t) && decide (2 < t.length))

/-- Models `TextPreprocessor.process_text` with both stemming and
lemmatization enabled (as constructed by `AdvancedInvertedIndex.__init__`);
the stemmer and lemmatizer are abstract token maps applied in source order. -/
def process_text (stop : List String) (stemF lemF : String → String) (s : String) :
    List String :=
  let cleaned := preprocess s
  let toks := tokenize cleaned
  let toks := remove_stopwords stop toks
  let toks := toks.map stemF
  toks.map lemF

/-- Models the body of the `existing/append` branch of
`AdvancedInvertedIndex.add_document` for one `(token, doc_id)` pair: if a
posting for `d` exists, replace the first one with
`(doc_id, freq_prev + freq * weight, field)`; otherwise append the new posting
at the end. -/
def updatePosting (ps : List Posting) (d : Nat) (fw : ℚ) (fld : String) : List Posting :=
  match ps with
  | [] => [⟨d, fw, fld⟩]
  | p :: rest =>
    if p.docId = d then ⟨d, p.freq + fw, fld⟩ :: rest
    else p :: updatePosting rest d fw fld

/-- One `self.index[token]` update: `defaultdict` getitem (inserting a fresh
entry at the end of the dict when the token is new) followed by the
`updatePosting` mutation of the entry's posting list. -/
def indexUpdate (idx : Index) (tok : String) (d : Nat) (fw : ℚ) (fld : String) : Index :=
  match idx with
  | [] => [(tok, updatePosting [] d fw fld)]
  | (t, ps) :: rest =>
    if t = tok then (t, updatePosting ps d fw fld) :: rest
    else (t, ps) :: indexUpdate rest tok d fw fld

/-- The indexing loop of `add_document`: for each processed field with a
nonempty token list, for each distinct token of that field, update the token's
posting list with weighted frequency `tokens.count(token) * weight`. -/
def indexFields (d : Nat) (fs : Fields) (idx : Index) : Index :=
  fs.foldl
    (fun acc fp =>
      if fp.2 = [] then acc
      else
        (dedupFirst fp.2).foldl
          (fun acc2 token =>
            indexUpdate acc2 token d ((fp.2.count token : ℚ) * fieldWeight fp.1) fp.1)
          acc)
    idx

/-- Models Python dict assignment `self.documents[doc_id] = doc_data`:
overwrite in place when the key exists, else append at the end. -/
def docsUpdate (docs : List (Nat × Doc)) (d : Nat) (r : Doc) : List (Nat × Doc) :=
  match docs with
  | [] => [(d, r)]
  | (d', r') :: rest =>
    if d' = d then (d, r) :: rest else (d', r') :: docsUpdate rest d r

/-- Models `AdvancedInvertedIndex.add_document`. -/
def add_document (st : IndexState) (d : Nat) (r : Doc) : IndexState :=
  let documents := docsUpdate st.documents d r
  let index := indexFields d r.fields st.index
  { index := index, documents := documents, doc_count := documents.length }

/-- A store built by a sequence of `add_document` calls from the empty store. -/
def buildIndex (ops : List (Nat × Doc)) : IndexState :=
  ops.foldl (fun s p => add_document s p.1 p.2) emptyState

/-- Models `defaultdict.__getitem__` on `self.index`: on a missing key a fresh
empty entry is inserted at the end of the dict. -/
def ddGet (idx : Index) (tok : String) : List Posting × Index :=
  match alookup idx tok with
  | some ps => (ps, idx)
  | none => ([], idx ++ [(tok, [])])

/-- The three query-local accumulators of `search` (`results`, `term_matches`,
`matched_fields`) together with the threaded `self.index`. -/
structure ScoreAcc where
  results : List (Nat × ℚ)
  termMatches : List (Nat × Nat)
  matchedFields : List (Nat × List String)
  index : Index
deriving DecidableEq

/-- Models `results[doc_id] += x` on a `defaultdict(float)`. -/
def bumpQ (l : List (Nat × ℚ)) (d : Nat) (x : ℚ) : List (Nat × ℚ) :=
  match l with
  | [] => [(d, x)]
  | (d', v) :: rest =>
    if d' = d then (d', v + x) :: rest else (d', v) :: bumpQ rest d x

/-- Models `term_matches[doc_id] += n` on a `defaultdict(int)`. -/
def bumpN (l : List (Nat × Nat)) (d : Nat) (n : Nat) : List (Nat × Nat) :=
  match l with
  | [] => [(d, n)]
  | (d', v) :: rest =>
    if d' = d then (d', v + n) :: rest else (d', v) :: bumpN rest d n

/-- Models `matched_fields[doc_id].add(field)` on a `defaultdict(set)` (the
set is modelled as a duplicate-free list in insertion order). -/
def addField (l : List (Nat × List String)) (d : Nat) (f : String) :
    List (Nat × List String) :=
  match l with
  | [] => [(d, [f])]
  | (d', fs) :: rest =>
    if d' = d then (d', if f ∈ fs then fs else fs ++ [f]) :: rest
    else (d', fs) :: addField rest d f

/-- The inner posting loop of `search` for one token: for every posting
`(doc_id, freq, field)` accumulate `freq * idf` into `results`, bump the
matched-term counter, and add the field to the matched-field set. -/
def scorePostings (idf : ℚ) (ps : List Posting) (acc : ScoreAcc) : ScoreAcc :=
  ps.foldl
    (fun a p =>
      { a with
        results := bumpQ a.results p.docId (p.freq * idf)
        termMatches := bumpN a.termMatches p.docId 1
        matchedFields := addField a.matchedFields p.docId p.field })
    acc

/-- One iteration of the scoring loop of `search`: skip tokens absent from the
index (`if token in self.index`), else read the posting list, compute
`df = len(set(x[0] for x in postings))` and `idf = lg(doc_count / df + 1)`,
and run the posting loop. -/
def scoreToken (lg : ℚ → ℚ) (docCount : Nat) (acc : ScoreAcc) (token : String) :
    ScoreAcc :=
  if (alookup acc.index token).isSome then
    let pr := ddGet acc.index token
    let df := (dedupFirst (pr.1.map Posting.docId)).length
    let idf := lg ((docCount : ℚ) / (df : ℚ) + 1)
    scorePostings idf pr.1 { acc with index := pr.2 }
  else acc

/-- The boost loop of `search`: for each scored document, multiply by 1.5 when
`title` is among its matched fields, add `len(matched_fields) * 5`, and
multiply by `1 + term_matches / len(tokens)`. -/
def applyBoosts (tm : List (Nat × Nat)) (mf : List (Nat × List String))
    (nTokens : Nat) (results : List (Nat × ℚ)) : List (Nat × ℚ) :=
  results.map
    (fun p =>
      let fields := (alookup mf p.1).getD []
      let s1 := if "title" ∈ fields then p.2 * (3/2) else p.2
      let s2 := s1 + (fields.length : ℚ) * 5
      let coverage := ((alookup tm p.1).getD 0 : ℚ) / (nTokens : ℚ)
      (p.1, s2 * (1 + coverage)))

/-- The whole scoring loop of `search`: fold `scoreToken` over the normalized
token list, starting from empty accumulators and the store's index. -/
def scoreLoop (lg : ℚ → ℚ) (st : IndexState) (tokens : List String) : ScoreAcc :=
  tokens.foldl (scoreToken lg st.doc_count) ⟨[], [], [], st.index⟩

/-- The score added to document `d` by one occurrence of query token `t` in
the scoring loop: over the postings for `t` whose doc id is `d`,
`weighted_freq * idf` with `idf = lg (doc_count / df + 1)` and `df` the number
of distinct doc ids in `t`'s posting list (zero when `t` is absent from the
index). -/
def tokenScoreContribution (lg : ℚ → ℚ) (docCount : Nat) (idx : Index) (t : String)
    (d : Nat) : ℚ :=
  ((((alookup idx t).getD []).filter (fun p => p.docId == d)).map
    (fun p =>
      p.freq *
        lg ((docCount : ℚ) /
          (((dedupFirst (((alookup idx t).getD []).map Posting.docId)).length : Nat) : ℚ) +
          1))).sum

/-- The sort relation of `sorted(results.items(), key=lambda x: x[1],
reverse=True)`: score descending; insertion sort along this relation places an
earlier entry before later entries of equal score, matching CPython's stable
sort. -/
def byScoreDesc (x y : Nat × ℚ) : Prop := x.2 ≥ y.2

instance : DecidableRel byScoreDesc := fun x y => inferInstanceAs (Decidable (x.2 ≥ y.2))

instance : IsTotal (Nat × ℚ) byScoreDesc := ⟨fun a b => le_total b.2 a.2⟩

instance : IsTrans (Nat × ℚ) byScoreDesc := ⟨fun _ _ _ h1 h2 => le_trans h2 h1⟩

/-- Models `AdvancedInvertedIndex.search` from the already-normalized token
list onward: empty-token early return, scoring loop, boosts, stable sort by
score descending (`sorted(..., reverse=True)`), and attaching the stored
record while silently skipping ids absent from the document table.  The second
component is the store as left behind by the call. -/
def searchTokens (lg : ℚ → ℚ) (st : IndexState) (tokens : List String) :
    List (Nat × Doc × ℚ) × IndexState :=
  if tokens = [] then ([], st)
  else
    let acc := scoreLoop lg st tokens
    let boosted := applyBoosts acc.termMatches acc.matchedFields tokens.length acc.results
    let ranked := List.insertionSort byScoreDesc boosted
    let out := ranked.filterMap
      (fun p =>
        match alookup st.documents p.1 with
        | some doc => some (p.1, doc, p.2)
        | none => none)
    (out, { st with index := acc.index })

/-- Models `AdvancedInvertedIndex.search` on a raw query string. -/
def search (lg : ℚ → ℚ) (stop : List String) (stemF lemF : String → String)
    (st : IndexState) (q : String) : List (Nat × Doc × ℚ) × IndexState :=
  searchTokens lg st (process_text stop stemF lemF q)

/-- The serialized blob written by `save`: the three values stored under the
keys of the pickled dict.  `none` models an absent key, so that `load`'s
schema-mismatch behavior can be stated. -/
structure Blob where
  index : Option Index
  documents : Option (List (Nat × Doc))
  doc_count : Option Nat
deriving DecidableEq

/-- Models the successful path of `AdvancedInvertedIndex.save`: the blob is
`{'index': dict(self.index), 'documents': self.documents,
'doc_count': self.doc_count}`. -/
def save (st : IndexState) : Blob :=
  { index := some st.index, documents := some st.documents, doc_count := some st.doc_count }

/-- Models `AdvancedInvertedIndex.load`.  `input = none` is an unreadable or
unpicklable file (the `open`/`pickle.load` exception); otherwise the blob's
keys are read in source order, each missing key raising `KeyError` at its
access site — note `self.index` is assigned before `data['documents']` is
read, and a missing `doc_count` key is not an error (`data.get`). -/
def load (st : IndexState) (input : Option Blob) : Bool × IndexState :=
  match input with
  | none => (false, st)
  | some data =>
    match data.index with
    | none => (false, st)
    | some idx =>
      let st1 := { st with index := idx }
      match data.documents with
      | none => (false, st1)
      | some docs =>
        let st2 := { st1 with documents := docs }
        (true, { st2 with doc_count := data.doc_count.getD docs.length })

/-- The weighted frequency of the first posting for `d` in a posting list
(`0` when no posting for `d` exists). -/
def freqPs : List Posting → Nat → ℚ
  | [], _ => 0
  | p :: rest, d => if p.docId = d then p.freq else freqPs rest d

/-- The weighted frequency stored in the index for `(token, doc_id)`. -/
def freqOf (idx : Index) (t : String) (d : Nat) : ℚ := freqPs ((alookup idx t).getD []) d

/-- Whether the index holds a posting for `(token, doc_id)`. -/
def hasPosting (idx : Index) (t : String) (d : Nat) : Bool :=
  ((alookup idx t).getD []).any (fun p => p.docId == d)

/-- The total weighted frequency one `add_document` call contributes to the
posting for `(t, doc_id)`: over each nonempty processed field holding `t`,
`count(t) * field weight`. -/
def contribution (fs : Fields) (t : String) : ℚ :=
  (fs.map (fun fp =>
    if fp.2 ≠ [] ∧ t ∈ fp.2 then (fp.2.count t : ℚ) * fieldWeight fp.1 else 0)).sum

/-- The C1 invariant: every posting list holds at most one posting per
document id. -/
def postingsNodup (idx : Index) : Prop :=
  ∀ t ps, alookup idx t = some ps → (ps.map Posting.docId).Nodup

/-- Modelled from the spec's words (§4.3 item 2), not from the source, for
comparison with the scoring loop of `searchTokens`: score contributions are
accumulated once per distinct query token present in the index. -/
def scoreDistinctTokens (lg : ℚ → ℚ) (docCount : Nat) (idx : Index)
    (tokens : List String) : ScoreAcc :=
  (dedupFirst tokens).foldl (scoreToken lg docCount) ⟨[], [], [], idx⟩

/-- A concrete record used in witnesses: title field with the single processed
token `cat`. -/
def exDoc : Doc := ⟨"doc0", [("title", ["cat"])]⟩

/-- A second concrete record used in witnesses. -/
def exDoc2 : Doc := ⟨"doc1", [("title", ["dog"])]⟩

/-- A concrete one-document store used in witnesses. -/
def exState : IndexState := add_document emptyState 0 exDoc

/-- A concrete store with a literally written index, used in witnesses. -/
def exStateLit : IndexState :=
  { index := [("cat", [⟨0, 1, "title"⟩])], documents := [(0, exDoc)], doc_count := 1 }

/-- A concrete store whose index holds the single token `old`, used as the
prior state in the C3 counterexample. -/
def exStateOld : IndexState :=
  { index := [("old", [])], documents := [(0, exDoc)], doc_count := 1 }

/-- A concrete blob holding an `index` key but no `documents` key, as read by
`load` after a schema change or truncation of the pickled dict. -/
def blobNoDocs : Blob := ⟨some [("new", [])], none, none⟩

/-! ### Helper lemmas -/

theorem foldl_preserve {α β : Type} (P : α → Prop) (f : α → β → α) :
    ∀ (l : List β) (acc : α), P acc → (∀ a b, P a → P (f a b)) → P (l.foldl f acc)
  | [], _, h, _ => h
  | b :: l, acc, h, hstep => foldl_preserve P f l (f acc b) (hstep acc b h) hstep

theorem mem_dedupFirst {α : Type} [DecidableEq α] (a : α) (l : List α) :
    a ∈ dedupFirst l ↔ a ∈ l := by
  induction l with
  | nil => simp [dedupFirst]
  | cons b rest ih =>
    by_cases hab : a = b
    · subst hab; simp [dedupFirst]
    · simp [dedupFirst, List.mem_filter, hab, ih]

theorem nodup_dedupFirst {α : Type} [DecidableEq α] (l : List α) :
    (dedupFirst l).Nodup := by
  induction l with
  | nil => simp [dedupFirst]
  | cons b rest ih =>
    rw [dedupFirst]
    refine List.nodup_cons.2 ⟨fun hmem => ?_, List.Nodup.filter _ ih⟩
    simp [List.mem_filter] at hmem

theorem length_dedupFirst_eq_card {α : Type} [DecidableEq α] (l : List α) :
    (dedupFirst l).length = l.toFinset.card := by
  have hset : (dedupFirst l).toFinset = l.toFinset := by
    ext a
    simp [List.mem_toFinset, mem_dedupFirst]
  calc (dedupFirst l).length = (dedupFirst l).toFinset.card :=
        (List.toFinset_card_of_nodup (nodup_dedupFirst l)).symm
    _ = l.toFinset.card := by rw [hset]

theorem alookup_bumpQ (l : List (Nat × ℚ)) (d0 : Nat) (x : ℚ) (d : Nat) :
    ((alookup (bumpQ l d0 x) d).getD 0) =
      (alookup l d).getD 0 + (if d0 = d then x else 0) := by
  induction l with
  | nil =>
    by_cases h : d0 = d <;> simp [bumpQ, alookup, h]
  | cons p rest ih =>
    obtain ⟨k, v⟩ := p
    by_cases hk : k = d0
    · subst hk
      by_cases hd : k = d <;> simp [bumpQ, alookup, hd]
    · by_cases hd : k = d
      · have hne : ¬ d0 = d := fun h => hk (hd.trans h.symm)
        have hne2 : ¬ d = d0 := fun h => hne h.symm
        simp [bumpQ, alookup, hk, hd, hne, hne2]
      · simp [bumpQ, alookup, hk, hd, ih]

theorem alookup_bumpN (l : List (Nat × Nat)) (d0 : Nat) (x : Nat) (d : Nat) :
    ((alookup (bumpN l d0 x) d).getD 0) =
      (alookup l d).getD 0 + (if d0 = d then x else 0) := by
  induction l with
  | nil =>
    by_cases h : d0 = d <;> simp [bumpN, alookup, h]
  | cons p rest ih =>
    obtain ⟨k, v⟩ := p
    by_cases hk : k = d0
    · subst hk
      by_cases hd : k = d <;> simp [bumpN, alookup, hd]
    · by_cases hd : k = d
      · have hne : ¬ d0 = d := fun h => hk (hd.trans h.symm)
        have hne2 : ¬ d = d0 := fun h => hne h.symm
        simp [bumpN, alookup, hk, hd, hne, hne2]
      · simp [bumpN, alookup, hk, hd, ih]

theorem mem_alookup_addField_self (l : List (Nat × List String)) (d : Nat) (f : String) :
    f ∈ (alookup (addField l d f) d).getD [] := by
  induction l with
  | nil => simp [addField, alookup]
  | cons p rest ih =>
    obtain ⟨k, fs⟩ := p
    by_cases hk : k = d
    · subst hk
      by_cases hf : f ∈ fs <;> simp [addField, alookup, hf]
    · simp [addField, alookup, hk, ih]

theorem mem_alookup_addField_mono (l : List (Nat × List String)) (d0 : Nat) (f0 : String)
    (d : Nat) (f : String) (h : f ∈ (alookup l d).getD []) :
    f ∈ (alookup (addField l d0 f0) d).getD [] := by
  induction l with
  | nil => simp [alookup] at h
  | cons p rest ih =>
    obtain ⟨k, fs⟩ := p
    by_cases hk : k = d0
    · subst hk
      by_cases hd : k = d
      · subst hd
        simp only [alookup, if_pos rfl, Option.getD_some] at h
        by_cases hf : f0 ∈ fs
        · simpa [addField, alookup, hf] using h
        · simp only [addField, if_pos rfl, hf, if_neg hf, alookup, Option.getD_some]
          exact List.mem_append_left _ h
      · simp only [addField, if_pos rfl, alookup, if_neg hd]
        simpa [alookup, hd] using h
    · by_cases hd : k = d
      · subst hd
        simp only [addField, if_neg hk, alookup, if_pos rfl, Option.getD_some] at h ⊢
        simpa [alookup] using h
      · simp only [addField, if_neg hk, alookup, if_neg hd] at h ⊢
        exact ih (by simpa [alookup, hd] using h)

theorem scorePostings_index (idf : ℚ) (ps : List Posting) (acc : ScoreAcc) :
    (scorePostings idf ps acc).index = acc.index := by
  induction ps generalizing acc with
  | nil => rfl
  | cons p rest ih => simpa [scorePostings] using ih _

theorem scorePostings_results (idf : ℚ) (ps : List Posting) (acc : ScoreAcc) (d : Nat) :
    ((alookup (scorePostings idf ps acc).results d).getD 0) =
      (alookup acc.results d).getD 0 +
        ((ps.filter (fun p => p.docId == d)).map (fun p => p.freq * idf)).sum := by
  induction ps generalizing acc with
  | nil => simp [scorePostings]
  | cons p rest ih =>
    have hstep : (scorePostings idf (p :: rest) acc) =
        scorePostings idf rest
          { acc with
            results := bumpQ acc.results p.docId (p.freq * idf)
            termMatches := bumpN acc.termMatches p.docId 1
            matchedFields := addField acc.matchedFields p.docId p.field } := rfl
    rw [hstep, ih]
    by_cases h : p.docId = d
    · simp only [List.filter_cons, h, beq_self_eq_true, if_true, List.map_cons, List.sum_cons,
        alookup_bumpQ, if_pos rfl]
      ring
    · have hb : (p.docId == d) = false := by simpa using h
      simp [List.filter_cons, hb, alookup_bumpQ, h]

theorem scorePostings_termMatches (idf : ℚ) (ps : List Posting) (acc : ScoreAcc) (d : Nat) :
    ((alookup (scorePostings idf ps acc).termMatches d).getD 0) =
      (alookup acc.termMatches d).getD 0 + (ps.filter (fun p => p.docId == d)).length := by
  induction ps generalizing acc with
  | nil => simp [scorePostings]
  | cons p rest ih =>
    have hstep : (scorePostings idf (p :: rest) acc) =
        scorePostings idf rest
          { acc with
            results := bumpQ acc.results p.docId (p.freq * idf)
            termMatches := bumpN acc.termMatches p.docId 1
            matchedFields := addField acc.matchedFields p.docId p.field } := rfl
    rw [hstep, ih]
    by_cases h : p.docId = d
    · simp only [List.filter_cons, h, beq_self_eq_true, if_true, List.length_cons,
        alookup_bumpN, if_pos rfl]
      omega
    · have hb : (p.docId == d) = false := by simpa using h
      simp [List.filter_cons, hb, alookup_bumpN, h]

theorem scorePostings_matchedFields (idf : ℚ) (ps : List Posting) (acc : ScoreAcc)
    (p : Posting) (hp : p ∈ ps) :
    p.field ∈ (alookup (scorePostings idf ps acc).matchedFields p.docId).getD [] := by
  induction ps generalizing acc with
  | nil => cases hp
  | cons q rest ih =>
    have hstep : (scorePostings idf (q :: rest) acc) =
        scorePostings idf rest
          { acc with
            results := bumpQ acc.results q.docId (q.freq * idf)
            termMatches := bumpN acc.termMatches q.docId 1
            matchedFields := addField acc.matchedFields q.docId q.field } := rfl
    rcases List.mem_cons.1 hp with hpq | hmem
    · subst hpq
      rw [hstep]
      have hbase : p.field ∈
          (alookup (addField acc.matchedFields p.docId p.field) p.docId).getD [] :=
        mem_alookup_addField_self _ _ _
      simp only [scorePostings]
      refine foldl_preserve
        (fun a : ScoreAcc => p.field ∈ (alookup a.matchedFields p.docId).getD [])
        _ rest _ hbase ?_
      intro a b hmemb
      exact mem_alookup_addField_mono _ _ _ _ _ hmemb
    · rw [hstep]
      exact ih _ hmem

theorem ddGet_of_isSome (idx : Index) (tok : String) (h : (alookup idx tok).isSome) :
    ddGet idx tok = ((alookup idx tok).getD [], idx) := by
  rcases hsome : alookup idx tok with _ | ps
  · rw [hsome] at h; cases h
  · simp [ddGet, hsome]

theorem scoreToken_index (lg : ℚ → ℚ) (n : Nat) (acc : ScoreAcc) (t : String) :
    (scoreToken lg n acc t).index = acc.index := by
  by_cases h : (alookup acc.index t).isSome
  · rw [scoreToken, if_pos h, ddGet_of_isSome _ _ h, scorePostings_index]
  · rw [scoreToken, if_neg h]

theorem scoreToken_termMatches (lg : ℚ → ℚ) (n : Nat) (acc : ScoreAcc) (t : String)
    (d : Nat) :
    ((alookup (scoreToken lg n acc t).termMatches d).getD 0) =
      (alookup acc.termMatches d).getD 0 +
        (((alookup acc.index t).getD []).filter (fun p => p.docId == d)).length := by
  by_cases h : (alookup acc.index t).isSome
  · rw [scoreToken, if_pos h, ddGet_of_isSome _ _ h]
    exact scorePostings_termMatches _ _ _ _
  · rw [scoreToken, if_neg h]
    rcases hnone : alookup acc.index t with _ | ps
    · simp
    · rw [hnone] at h; simp at h

theorem foldTokens_index (lg : ℚ → ℚ) (n : Nat) (tokens : List String) (acc : ScoreAcc) :
    (tokens.foldl (scoreToken lg n) acc).index = acc.index := by
  induction tokens generalizing acc with
  | nil => rfl
  | cons t rest ih => rw [List.foldl_cons, ih, scoreToken_index]

theorem foldTokens_termMatches (lg : ℚ → ℚ) (n : Nat) (tokens : List String)
    (acc : ScoreAcc) (d : Nat) :
    ((alookup (tokens.foldl (scoreToken lg n) acc).termMatches d).getD 0) =
      (alookup acc.termMatches d).getD 0 +
        (tokens.map
          (fun t => (((alookup acc.index t).getD []).filter (fun p => p.docId == d)).length)).sum := by
  induction tokens generalizing acc with
  | nil => simp
  | cons t rest ih =>
    rw [List.foldl_cons, ih, scoreToken_termMatches]
    have hidx : (scoreToken lg n acc t).index = acc.index := scoreToken_index _ _ _ _
    rw [hidx]
    simp [add_assoc]

theorem scoreToken_results (lg : ℚ → ℚ) (n : Nat) (acc : ScoreAcc) (t : String) (d : Nat) :
    ((alookup (scoreToken lg n acc t).results d).getD 0) =
      (alookup acc.results d).getD 0 + tokenScoreContribution lg n acc.index t d := by
  by_cases h : (alookup acc.index t).isSome
  · rw [scoreToken, if_pos h, ddGet_of_isSome _ _ h, tokenScoreContribution]
    exact scorePostings_results _ _ _ _
  · rw [scoreToken, if_neg h, tokenScoreContribution]
    rcases hnone : alookup acc.index t with _ | ps
    · simp
    · rw [hnone] at h; simp at h

theorem foldTokens_results (lg : ℚ → ℚ) (n : Nat) (tokens : List String)
    (acc : ScoreAcc) (d : Nat) :
    ((alookup (tokens.foldl (scoreToken lg n) acc).results d).getD 0) =
      (alookup acc.results d).getD 0 +
        (tokens.map (fun t => tokenScoreContribution lg n acc.index t d)).sum := by
  induction tokens generalizing acc with
  | nil => simp
  | cons t rest ih =>
    rw [List.foldl_cons, ih, scoreToken_results]
    have hidx : (scoreToken lg n acc t).index = acc.index := scoreToken_index _ _ _ _
    rw [hidx]
    simp [add_assoc]

/-- The C2 claim is wrong on the code: the scoring loop of `search` iterates
over the token list including duplicates (`for token in tokens`), not over
distinct tokens.  On the store `exStateLit` (one document, token `cat` with
weighted frequency 1, `doc_count = 1`, so with `lg` the identity each matching
occurrence contributes `1 * (1/1 + 1) = 2`) the normalized query `cat cat`
yields the token `cat` twice, and the code's scoring loop leaves document 0
with matched-term counter 2 and accumulated score 4, although only one
distinct query token matched — the spec's distinct-token rule
(`scoreDistinctTokens`) leaves counter 1 and score 2. -/
theorem c2_counterexample :
    process_text [] id id "cat cat" = ["cat", "cat"] ∧
    (scoreLoop (fun x => x) exStateLit (process_text [] id id "cat cat")).termMatches =
      [(0, 2)] ∧
    ((alookup (scoreLoop (fun x => x) exStateLit
        (process_text [] id id "cat cat")).results 0).getD 0) = 4 ∧
    (scoreDistinctTokens (fun x => x) exStateLit.doc_count exStateLit.index
        (process_text [] id id "cat cat")).termMatches = [(0, 1)] ∧
    ((alookup (scoreDistinctTokens (fun x => x) exStateLit.doc_count exStateLit.index
        (process_text [] id id "cat cat")).results 0).getD 0) = 2 := by
  have htoks : process_text [] id id "cat cat" = ["cat", "cat"] := by decide
  refine ⟨htoks, by decide, ?_, by decide, ?_⟩
  · rw [htoks, scoreLoop]
    norm_num [List.foldl_cons, List.foldl_nil, scoreToken, scorePostings, ddGet, alookup,
      exStateLit, dedupFirst, List.filter, bumpQ, bumpN, addField]
  · rw [htoks, scoreDistinctTokens, dedupFirst]
    norm_num [List.filter, List.foldl_cons, List.foldl_nil, scoreToken, scorePostings,
      ddGet, alookup, exStateLit, dedupFirst, bumpQ, bumpN, addField]

/-- C2, amended: in `search`, the scoring loop runs once per occurrence of a
query token (a token appearing twice in the normalized query contributes
twice), so a document's accumulated score equals the sum, over all query-token
occurrences counted with multiplicity, of that occurrence's postings'
`weighted_freq * idf` contributions for the document, and its matched-term
counter equals the number of query-token occurrences whose posting list holds
a posting for the document; `term_coverage` (the multiplier
`1 + term_matches / len(tokens)` of `applyBoosts`) divides this occurrence
count by the total number of query tokens. -/
theorem c2_per_occurrence (lg : ℚ → ℚ) (st : IndexState) (tokens : List String) (d : Nat) :
    ((alookup (scoreLoop lg st tokens).results d).getD 0) =
      (tokens.map (fun t => tokenScoreContribution lg st.doc_count st.index t d)).sum ∧
    ((alookup (scoreLoop lg st tokens).termMatches d).getD 0) =
      (tokens.map
        (fun t => (((alookup st.index t).getD []).filter (fun p => p.docId == d)).length)).sum := by
  constructor
  · rw [scoreLoop]
    have h := foldTokens_results lg st.doc_count tokens ⟨[], [], [], st.index⟩ d
    simpa [alookup] using h
  · rw [scoreLoop]
    have h := foldTokens_termMatches lg st.doc_count tokens ⟨[], [], [], st.index⟩ d
    simpa [alookup] using h

/-- C10: `search` leaves the store unchanged — the token→postings mapping, the
document table, and the document count are identical before and after the
call; in particular, querying a token absent from the index does not create an
empty posting list for it, because membership is tested before the
`defaultdict`-backed posting lists are accessed. -/
theorem c10_search_frame (lg : ℚ → ℚ) (stop : List String) (stemF lemF : String → String)
    (st : IndexState) (q : String) :
    (search lg stop stemF lemF st q).2 = st := by
  rw [search, searchTokens]
  by_cases h : process_text stop stemF lemF q = []
  · rw [if_pos h]
  · rw [if_neg h]
    show { st with index := (scoreLoop lg st (process_text stop stemF lemF q)).index } = st
    rw [scoreLoop, foldTokens_index]

/-- C9: a query whose normalization produces zero tokens (for example the
empty string, or a query consisting solely of stopwords or of tokens of
length ≤ 2) makes `search` return the empty result list. -/
theorem c9_empty_query (lg : ℚ → ℚ) (stop : List String) (stemF lemF : String → String)
    (st : IndexState) (q : String) (h : process_text stop stemF lemF q = []) :
    (search lg stop stemF lemF st q).1 = [] := by
  rw [search, searchTokens, h]
  rfl

/-- Witness for C9 at a concrete input: the query `the of to` consists solely
of stopwords, normalizes to zero tokens, and returns the empty result list. -/
theorem c9_empty_query_witness :
    (search (fun x => x) STOP_WORDS id id exState "the of to").1 = [] :=
  c9_empty_query (fun x => x) STOP_WORDS id id exState "the of to" (by decide)

/-- C6: `save` followed by `load` into a fresh empty store succeeds and
reconstructs the saved store exactly, so `search` over the loaded store
returns the same results (same documents, same ordering, same scores) as
over the pre-save store, for every query. -/
theorem c6_round_trip (lg : ℚ → ℚ) (stop : List String) (stemF lemF : String → String)
    (st : IndexState) (q : String) :
    load emptyState (some (save st)) = (true, st) ∧
    search lg stop stemF lemF (load emptyState (some (save st))).2 q =
      search lg stop stemF lemF st q := by
  obtain ⟨idx, docs, n⟩ := st
  exact ⟨rfl, rfl⟩

/-- The C3 claim is wrong on the code: `load` of a blob that holds an `index`
key but lacks the `documents` key reports failure yet leaves the store
partially populated — `self.index` has already been replaced when the
`KeyError` on `data['documents']` is raised.  Concretely, loading `blobNoDocs`
into `exStateOld` returns `False` but swaps the index from token `old` to
token `new`, keeping the old document table and count. -/
theorem c3_counterexample :
    (load exStateOld (some blobNoDocs)).1 = false ∧
    (load exStateOld (some blobNoDocs)).2 ≠ exStateOld ∧
    (load exStateOld (some blobNoDocs)).2 =
      { exStateOld with index := [("new", [])] } := by
  refine ⟨?_, ?_, ?_⟩ <;> decide

/-- C3, amended: every failing `load` returns `False` and leaves the document
table and the document count exactly as they were; the index is also left
unchanged when the file is unreadable, the blob corrupt, or the blob lacks the
`index` key, but when the blob holds an `index` key and lacks the `documents`
key the store's index has already been replaced by the blob's index (partial
population). -/
theorem c3_load_failure (st : IndexState) (input : Option Blob)
    (h : (load st input).1 = false) :
    (load st input).2 =
      (match input with
       | none => st
       | some data =>
         match data.index with
         | none => st
         | some idx => { st with index := idx }) := by
  match input with
  | none => rfl
  | some data =>
    match hidx : data.index with
    | none => simp [load, hidx]
    | some idx =>
      match hdocs : data.documents with
      | none => simp [load, hidx, hdocs]
      | some docs =>
        exfalso
        rw [load] at h
        simp only [hidx, hdocs] at h
        cases h

/-- Witness for C3 (amended) at a concrete input: loading a blob with an
`index` key and no `documents` key into `exStateOld` fails and leaves exactly
the index replaced. -/
theorem c3_load_failure_witness :
    (load exStateOld (some blobNoDocs)).2 = { exStateOld with index := [("new", [])] } :=
  c3_load_failure exStateOld (some blobNoDocs) (by decide)

theorem filter_eq_single (ps : List Posting) (p : Posting)
    (hnd : (ps.map Posting.docId).Nodup) (hp : p ∈ ps) :
    ps.filter (fun q => q.docId == p.docId) = [p] := by
  induction ps with
  | nil => cases hp
  | cons q rest ih =>
    rw [List.map_cons, List.nodup_cons] at hnd
    rcases List.mem_cons.1 hp with hpq | hmem
    · subst hpq
      rw [List.filter_cons, if_pos (by simp)]
      have hnil : rest.filter (fun q => q.docId == p.docId) = [] := by
        rw [List.filter_eq_nil_iff]
        intro a ha
        simp only [beq_iff_eq]
        intro hcontra
        exact hnd.1 (hcontra ▸ List.mem_map_of_mem Posting.docId ha)
      rw [hnil]
    · have hne : q.docId ≠ p.docId := by
        intro hcontra
        exact hnd.1 (hcontra ▸ List.mem_map_of_mem Posting.docId hmem)
      rw [List.filter_cons, if_neg (by simpa using hne)]
      exact ih hnd.2 hmem

/-- C4: for a query token present in the index, the scoring step computes the
document frequency `df` as the number of distinct document ids holding a
posting for that token, computes `idf = lg (total_docs / df + 1)` with the
`+1` inside the logarithm's argument, and for every posting
`(doc_id, weighted_freq, field)` under that token adds `weighted_freq * idf`
to the document's score, increments its matched-term counter by one, and adds
`field` to its set of matched fields. -/
theorem c4_token_scoring (lg : ℚ → ℚ) (docCount : Nat) (acc : ScoreAcc) (token : String)
    (ps : List Posting) (hps : alookup acc.index token = some ps)
    (hnd : (ps.map Posting.docId).Nodup) (p : Posting) (hp : p ∈ ps) :
    (alookup (scoreToken lg docCount acc token).results p.docId).getD 0 =
      (alookup acc.results p.docId).getD 0 +
        p.freq * lg ((docCount : ℚ) / (((ps.map Posting.docId).toFinset.card : Nat) : ℚ) + 1) ∧
    (alookup (scoreToken lg docCount acc token).termMatches p.docId).getD 0 =
      (alookup acc.termMatches p.docId).getD 0 + 1 ∧
    p.field ∈ (alookup (scoreToken lg docCount acc token).matchedFields p.docId).getD [] := by
  have hred : scoreToken lg docCount acc token =
      scorePostings
        (lg ((docCount : ℚ) / (((dedupFirst (ps.map Posting.docId)).length : Nat) : ℚ) + 1))
        ps acc := by
    rw [scoreToken]
    simp [hps, ddGet]
  refine ⟨?_, ?_, ?_⟩
  · rw [hred, scorePostings_results, filter_eq_single ps p hnd hp]
    simp [length_dedupFirst_eq_card]
  · rw [hred, scorePostings_termMatches, filter_eq_single ps p hnd hp]
    rfl
  · rw [hred]
    exact scorePostings_matchedFields _ _ _ _ hp

/-- Witness for C4 at a concrete input: a store holding the single token
`cat` with one posting for document 0. -/
theorem c4_token_scoring_witness :
    (alookup (scoreToken (fun x => x) 1 ⟨[], [], [], [("cat", [⟨0, 1, "title"⟩])]⟩
        "cat").results 0).getD 0 =
      (alookup ([] : List (Nat × ℚ)) 0).getD 0 +
        (1 : ℚ) * (fun x => x)
          (((1 : Nat) : ℚ) /
            ((((([⟨0, 1, "title"⟩] : List Posting).map Posting.docId).toFinset.card : Nat)) : ℚ) + 1) ∧
    (alookup (scoreToken (fun x => x) 1 ⟨[], [], [], [("cat", [⟨0, 1, "title"⟩])]⟩
        "cat").termMatches 0).getD 0 =
      (alookup ([] : List (Nat × Nat)) 0).getD 0 + 1 ∧
    "title" ∈ (alookup (scoreToken (fun x => x) 1 ⟨[], [], [], [("cat", [⟨0, 1, "title"⟩])]⟩
        "cat").matchedFields 0).getD [] := by
  have h := c4_token_scoring (fun x => x) 1 ⟨[], [], [], [("cat", [⟨0, 1, "title"⟩])]⟩
    "cat" [⟨0, 1, "title"⟩] rfl (by decide) ⟨0, 1, "title"⟩ (List.mem_singleton.2 rfl)
  exact h

theorem mem_docId_updatePosting (ps : List Posting) (d : Nat) (fw : ℚ) (fld : String)
    (x : Nat) (hx : x ∈ (updatePosting ps d fw fld).map Posting.docId) :
    x ∈ ps.map Posting.docId ∨ x = d := by
  induction ps with
  | nil => simpa [updatePosting] using hx
  | cons q rest ih =>
    rw [updatePosting] at hx
    by_cases hq : q.docId = d
    · rw [if_pos hq] at hx
      rcases List.mem_cons.1 hx with hxd | hxrest
      · exact Or.inr hxd
      · exact Or.inl (List.mem_cons.2 (Or.inr hxrest))
    · rw [if_neg hq] at hx
      rcases List.mem_cons.1 hx with hxq | hxrest
      · exact Or.inl (List.mem_cons.2 (Or.inl hxq))
      · rcases ih hxrest with h1 | h2
        · exact Or.inl (List.mem_cons.2 (Or.inr h1))
        · exact Or.inr h2

theorem nodup_updatePosting (ps : List Posting) (d : Nat) (fw : ℚ) (fld : String)
    (h : (ps.map Posting.docId).Nodup) :
    ((updatePosting ps d fw fld).map Posting.docId).Nodup := by
  induction ps with
  | nil => simp [updatePosting]
  | cons q rest ih =>
    rw [List.map_cons, List.nodup_cons] at h
    rw [updatePosting]
    by_cases hq : q.docId = d
    · rw [if_pos hq]
      rw [List.map_cons, List.nodup_cons]
      exact ⟨hq ▸ h.1, h.2⟩
    · rw [if_neg hq]
      rw [List.map_cons, List.nodup_cons]
      refine ⟨fun hmem => ?_, ih h.2⟩
      rcases mem_docId_updatePosting rest d fw fld q.docId hmem with h1 | h2
      · exact h.1 h1
      · exact hq h2

theorem alookup_indexUpdate (idx : Index) (tok : String) (d : Nat) (fw : ℚ) (fld : String)
    (t : String) :
    alookup (indexUpdate idx tok d fw fld) t =
      if t = tok then some (updatePosting ((alookup idx tok).getD []) d fw fld)
      else alookup idx t := by
  induction idx with
  | nil =>
    by_cases ht : t = tok
    · simp [indexUpdate, alookup, ht]
    · have : ¬ tok = t := fun hcontra => ht hcontra.symm
      simp [indexUpdate, alookup, ht, this]
  | cons e rest ih =>
    obtain ⟨k, ps⟩ := e
    by_cases hk : k = tok
    · subst hk
      by_cases ht : t = k
      · subst ht
        simp [indexUpdate, alookup]
      · have : ¬ k = t := fun hcontra => ht hcontra.symm
        simp [indexUpdate, alookup, ht, this]
    · by_cases ht : t = tok
      · subst ht
        have hkt : ¬ k = t := fun hcontra => hk hcontra
        simp [indexUpdate, alookup, hk, hkt, ih]
      · by_cases hkt : k = t
        · simp [indexUpdate, alookup, hk, hkt, ht]
        · simp [indexUpdate, alookup, hk, hkt, ht, ih]

theorem postingsNodup_indexUpdate (idx : Index) (tok : String) (d : Nat) (fw : ℚ)
    (fld : String) (h : postingsNodup idx) :
    postingsNodup (indexUpdate idx tok d fw fld) := by
  intro t ps hps
  rw [alookup_indexUpdate] at hps
  by_cases ht : t = tok
  · rw [if_pos ht] at hps
    injection hps with hps
    subst hps
    apply nodup_updatePosting
    rcases hidx : alookup idx tok with _ | ps0
    · simp
    · simpa using h tok ps0 hidx
  · rw [if_neg ht] at hps
    exact h t ps hps

theorem postingsNodup_indexFields (d : Nat) (fs : Fields) (idx : Index)
    (h : postingsNodup idx) : postingsNodup (indexFields d fs idx) := by
  rw [indexFields]
  refine foldl_preserve postingsNodup _ fs idx h ?_
  intro acc fp hacc
  by_cases hfp : fp.2 = []
  · simpa [hfp] using hacc
  · simp only [hfp, if_neg, ite_false]
    refine foldl_preserve postingsNodup _ (dedupFirst fp.2) acc hacc ?_
    intro acc2 token hacc2
    exact postingsNodup_indexUpdate _ _ _ _ _ hacc2

theorem map_merge_id (l : List Posting) (d : Nat) (x : Posting)
    (h : ∀ p ∈ l, p.docId ≠ d) :
    l.map (fun p => if p.docId = d then x else p) = l := by
  induction l with
  | nil => rfl
  | cons q rest ih =>
    rw [List.map_cons, if_neg (h q (List.mem_cons_self q rest)), ih]
    intro p hp
    exact h p (List.mem_cons.2 (Or.inr hp))

theorem updatePosting_merge (ps : List Posting) (d : Nat) (v : ℚ) (f0 : String)
    (fw : ℚ) (fld : String) (hnd : (ps.map Posting.docId).Nodup)
    (hmem : (⟨d, v, f0⟩ : Posting) ∈ ps) :
    updatePosting ps d fw fld =
      ps.map (fun p => if p.docId = d then ⟨d, v + fw, fld⟩ else p) := by
  induction ps with
  | nil => cases hmem
  | cons q rest ih =>
    rw [List.map_cons, List.nodup_cons] at hnd
    by_cases hq : q.docId = d
    · have hqeq : q = ⟨d, v, f0⟩ := by
        rcases List.mem_cons.1 hmem with heq | hrest
        · exact heq.symm
        · exact absurd (hq ▸ List.mem_map_of_mem Posting.docId hrest) hnd.1
      have hrest_ne : ∀ p ∈ rest, p.docId ≠ d := by
        intro p hp hcontra
        exact hnd.1 (hq ▸ hcontra ▸ List.mem_map_of_mem Posting.docId hp)
      rw [updatePosting, if_pos hq, List.map_cons, if_pos hq, map_merge_id rest d _ hrest_ne,
        hqeq]
    · have hmem_rest : (⟨d, v, f0⟩ : Posting) ∈ rest := by
        rcases List.mem_cons.1 hmem with heq | hrest
        · exact absurd (congrArg Posting.docId heq.symm) hq
        · exact hrest
      rw [updatePosting, if_neg hq, List.map_cons, if_neg hq, ih hnd.2 hmem_rest]

/-- C1: in every store built by a sequence of `add_document` calls from the
empty store, each posting list holds at most one posting per document id; and
whenever an insertion processes a `(token, doc_id)` pair that already has a
posting — from an earlier field of the same insertion or from a previous
insertion of the same id — that posting is replaced in place by a single
posting whose weighted frequency is the sum of the old and the new weighted
frequency and whose field tag is the field currently being processed. -/
theorem c1_posting_uniqueness_and_merge :
    (∀ ops : List (Nat × Doc), postingsNodup (buildIndex ops).index) ∧
    (∀ (ps : List Posting) (d : Nat) (v : ℚ) (f0 : String) (fw : ℚ) (fld : String),
      (ps.map Posting.docId).Nodup → (⟨d, v, f0⟩ : Posting) ∈ ps →
      updatePosting ps d fw fld =
        ps.map (fun p => if p.docId = d then ⟨d, v + fw, fld⟩ else p)) := by
  constructor
  · intro ops
    rw [buildIndex]
    refine foldl_preserve (fun st => postingsNodup st.index) _ ops emptyState ?_ ?_
    · intro t ps hps
      simp [emptyState, alookup] at hps
    · intro st p hst
      exact postingsNodup_indexFields _ _ _ hst
  · intro ps d v f0 fw fld hnd hmem
    exact updatePosting_merge ps d v f0 fw fld hnd hmem

/-- Witness for C1 at a concrete input: merging a new weighted frequency 5
from field `authors` into an existing posting `(0, 3, title)` replaces it by
`(0, 3 + 5, authors)` and leaves the other posting untouched. -/
theorem c1_posting_uniqueness_and_merge_witness :
    updatePosting [⟨0, 3, "title"⟩, ⟨1, 2, "abstract"⟩] 0 5 "authors" =
      [(⟨0, 3, "title"⟩ : Posting), ⟨1, 2, "abstract"⟩].map
        (fun p => if p.docId = 0 then ⟨0, 3 + 5, "authors"⟩ else p) :=
  c1_posting_uniqueness_and_merge.2 [⟨0, 3, "title"⟩, ⟨1, 2, "abstract"⟩] 0 3 "title" 5
    "authors" (by decide) (List.mem_cons_self _ _)

theorem freqPs_updatePosting_self (ps : List Posting) (d : Nat) (fw : ℚ) (fld : String) :
    freqPs (updatePosting ps d fw fld) d = freqPs ps d + fw := by
  induction ps with
  | nil => simp [updatePosting, freqPs]
  | cons q rest ih =>
    by_cases hq : q.docId = d
    · simp [updatePosting, freqPs, hq]
    · simp [updatePosting, freqPs, hq, ih]

theorem freqPs_updatePosting_ne (ps : List Posting) (d : Nat) (fw : ℚ) (fld : String)
    (d' : Nat) (h : d' ≠ d) :
    freqPs (updatePosting ps d fw fld) d' = freqPs ps d' := by
  have hdd : ¬ d = d' := fun hcontra => h hcontra.symm
  induction ps with
  | nil => simp [updatePosting, freqPs, hdd]
  | cons q rest ih =>
    by_cases hq : q.docId = d
    · have hq' : ¬ q.docId = d' := fun hcontra => h (hcontra.symm.trans hq)
      simp [updatePosting, freqPs, hq, hdd, hq']
    · simp only [updatePosting, if_neg hq, freqPs]
      by_cases hq' : q.docId = d' <;> simp [hq', ih]

theorem freqOf_indexUpdate (idx : Index) (tok : String) (d : Nat) (fw : ℚ) (fld : String)
    (t : String) (d' : Nat) :
    freqOf (indexUpdate idx tok d fw fld) t d' =
      freqOf idx t d' + (if t = tok ∧ d' = d then fw else 0) := by
  rw [freqOf, freqOf, alookup_indexUpdate]
  by_cases ht : t = tok
  · subst ht
    rw [if_pos rfl, Option.getD_some]
    by_cases hd : d' = d
    · subst hd
      simp [freqPs_updatePosting_self]
    · simp [freqPs_updatePosting_ne _ _ _ _ _ hd, hd]
  · simp [ht]

theorem freqOf_tokenFold (d : Nat) (fld : String) (cnt : String → ℚ) (ts : List String)
    (hnd : ts.Nodup) (idx : Index) (t : String) (d' : Nat) :
    freqOf (ts.foldl (fun acc tok => indexUpdate acc tok d (cnt tok) fld) idx) t d' =
      freqOf idx t d' + (if t ∈ ts ∧ d' = d then cnt t else 0) := by
  induction ts generalizing idx with
  | nil => simp
  | cons tok rest ih =>
    rw [List.nodup_cons] at hnd
    rw [List.foldl_cons, ih hnd.2, freqOf_indexUpdate]
    by_cases hd : d' = d
    · by_cases htok : t = tok
      · simp [htok, hd, hnd.1]
      · by_cases hrest : t ∈ rest <;> simp [htok, hd, hrest]
    · simp [hd]

theorem freqOf_indexFields (d : Nat) (fs : Fields) (idx : Index) (t : String) (d' : Nat) :
    freqOf (indexFields d fs idx) t d' =
      freqOf idx t d' + (if d' = d then contribution fs t else 0) := by
  induction fs generalizing idx with
  | nil => simp [indexFields, contribution]
  | cons fp rest ih =>
    have hcons : indexFields d (fp :: rest) idx =
        indexFields d rest
          (if fp.2 = [] then idx
           else
             (dedupFirst fp.2).foldl
               (fun acc2 token =>
                 indexUpdate acc2 token d ((fp.2.count token : ℚ) * fieldWeight fp.1) fp.1)
               idx) := by
      rw [indexFields, indexFields, List.foldl_cons]
    rw [hcons, ih]
    have hcontr : contribution (fp :: rest) t =
        (if fp.2 ≠ [] ∧ t ∈ fp.2 then (fp.2.count t : ℚ) * fieldWeight fp.1 else 0) +
          contribution rest t := by
      rw [contribution, List.map_cons, List.sum_cons, contribution]
    rw [hcontr]
    by_cases hfp : fp.2 = []
    · simp [hfp]
    · rw [if_neg hfp]
      rw [freqOf_tokenFold d fp.1 _ (dedupFirst fp.2) (nodup_dedupFirst _) idx t d']
      by_cases hd : d' = d
      · by_cases hmem : t ∈ fp.2
        · simp [hd, hmem, mem_dedupFirst, hfp]
          ring
        · simp [hd, hmem, mem_dedupFirst, hfp]
      · simp [hd]

theorem freqOf_add_document (st : IndexState) (d : Nat) (r : Doc) (t : String) :
    freqOf (add_document st d r).index t d = freqOf st.index t d + contribution r.fields t := by
  have : (add_document st d r).index = indexFields d r.fields st.index := rfl
  rw [this, freqOf_indexFields, if_pos rfl]

theorem fieldWeight_pos (f : String) : 0 < fieldWeight f := by
  rw [fieldWeight, FIELD_WEIGHTS]
  simp only [alookup]
  split_ifs <;> norm_num

theorem contribution_term_nonneg (fp : String × List String) (t : String) :
    0 ≤ (if fp.2 ≠ [] ∧ t ∈ fp.2 then (fp.2.count t : ℚ) * fieldWeight fp.1 else 0) := by
  split_ifs
  · exact mul_nonneg (Nat.cast_nonneg _) (le_of_lt (fieldWeight_pos _))
  · exact le_refl 0

theorem contribution_nonneg (fs : Fields) (t : String) : 0 ≤ contribution fs t := by
  induction fs with
  | nil => simp [contribution]
  | cons fp rest ih =>
    rw [contribution, List.map_cons, List.sum_cons]
    exact add_nonneg (contribution_term_nonneg fp t) ih

theorem contribution_pos (fs : Fields) (t : String) (h : ∃ fp ∈ fs, t ∈ fp.2) :
    0 < contribution fs t := by
  induction fs with
  | nil => simp at h
  | cons fp rest ih =>
    rw [contribution, List.map_cons, List.sum_cons]
    rcases h with ⟨wit, hwit, htmem⟩
    rcases List.mem_cons.1 hwit with hw | hw
    · subst hw
      have hne : wit.2 ≠ [] := List.ne_nil_of_mem htmem
      have hcount : 0 < wit.2.count t := List.count_pos_iff.2 htmem
      have hterm : 0 < (wit.2.count t : ℚ) * fieldWeight wit.1 :=
        mul_pos (by exact_mod_cast hcount) (fieldWeight_pos _)
      rw [if_pos ⟨hne, htmem⟩]
      have := contribution_nonneg rest t
      rw [contribution] at this
      linarith
    · have hrest : 0 < contribution rest t := ih ⟨wit, hw, htmem⟩
      rw [contribution] at hrest
      have := contribution_term_nonneg fp t
      linarith

theorem any_updatePosting (ps : List Posting) (d : Nat) (fw : ℚ) (fld : String) :
    (updatePosting ps d fw fld).any (fun p => p.docId == d) = true := by
  induction ps with
  | nil => simp [updatePosting]
  | cons q rest ih =>
    by_cases hq : q.docId = d
    · simp [updatePosting, hq]
    · simp [updatePosting, hq, ih]

theorem any_updatePosting_mono (ps : List Posting) (d0 : Nat) (fw : ℚ) (fld : String)
    (d : Nat) (h : ps.any (fun p => p.docId == d) = true) :
    (updatePosting ps d0 fw fld).any (fun p => p.docId == d) = true := by
  induction ps with
  | nil => simp at h
  | cons q rest ih =>
    rw [List.any_cons] at h
    by_cases hq : q.docId = d0
    · rcases Bool.or_eq_true_iff.1 h with hhead | hrest
      · have : q.docId = d := by simpa using hhead
        simp [updatePosting, hq, this.symm.trans hq]
      · simp [updatePosting, hq, hrest]
    · rcases Bool.or_eq_true_iff.1 h with hhead | hrest
      · simp [updatePosting, hq, hhead]
      · simp [updatePosting, hq, ih hrest]

theorem hasPosting_indexUpdate_self (idx : Index) (tok : String) (d : Nat) (fw : ℚ)
    (fld : String) : hasPosting (indexUpdate idx tok d fw fld) tok d = true := by
  rw [hasPosting, alookup_indexUpdate, if_pos rfl, Option.getD_some]
  exact any_updatePosting _ _ _ _

theorem hasPosting_indexUpdate_mono (idx : Index) (tok0 : String) (d0 : Nat) (fw : ℚ)
    (fld : String) (t : String) (d : Nat) (h : hasPosting idx t d = true) :
    hasPosting (indexUpdate idx tok0 d0 fw fld) t d = true := by
  rw [hasPosting, alookup_indexUpdate]
  by_cases ht : t = tok0
  · subst ht
    rw [if_pos rfl, Option.getD_some]
    rw [hasPosting] at h
    exact any_updatePosting_mono _ _ _ _ _ h
  · rw [if_neg ht]
    exact h

theorem hasPosting_tokenFold (d : Nat) (fld : String) (cnt : String → ℚ)
    (ts : List String) (idx : Index) (t : String) (h : t ∈ ts) :
    hasPosting (ts.foldl (fun acc tok => indexUpdate acc tok d (cnt tok) fld) idx) t d =
      true := by
  induction ts generalizing idx with
  | nil => cases h
  | cons tok rest ih =>
    rw [List.foldl_cons]
    rcases List.mem_cons.1 h with htok | hrest
    · subst htok
      refine foldl_preserve (fun a : Index => hasPosting a t d = true) _ rest _ ?_ ?_
      · exact hasPosting_indexUpdate_self _ _ _ _ _
      · intro a b hab
        exact hasPosting_indexUpdate_mono _ _ _ _ _ _ _ hab
    · exact ih _ hrest

theorem hasPosting_indexFields_mono (d : Nat) (fs : Fields) (idx : Index) (t : String)
    (d' : Nat) (h : hasPosting idx t d' = true) :
    hasPosting (indexFields d fs idx) t d' = true := by
  rw [indexFields]
  refine foldl_preserve (fun a : Index => hasPosting a t d' = true) _ fs idx h ?_
  intro a fp ha
  by_cases hfp : fp.2 = []
  · simpa [hfp] using ha
  · simp only [hfp, ite_false]
    refine foldl_preserve (fun a2 : Index => hasPosting a2 t d' = true) _ _ a ha ?_
    intro a2 token ha2
    exact hasPosting_indexUpdate_mono _ _ _ _ _ _ _ ha2

theorem hasPosting_indexFields (d : Nat) (fs : Fields) (idx : Index) (t : String)
    (h : ∃ fp ∈ fs, t ∈ fp.2) :
    hasPosting (indexFields d fs idx) t d = true := by
  induction fs generalizing idx with
  | nil => simp at h
  | cons fp rest ih =>
    have hcons : indexFields d (fp :: rest) idx =
        indexFields d rest
          (if fp.2 = [] then idx
           else
             (dedupFirst fp.2).foldl
               (fun acc2 token =>
                 indexUpdate acc2 token d ((fp.2.count token : ℚ) * fieldWeight fp.1) fp.1)
               idx) := by
      rw [indexFields, indexFields, List.foldl_cons]
    rw [hcons]
    rcases h with ⟨wit, hwit, htmem⟩
    rcases List.mem_cons.1 hwit with hw | hw
    · subst hw
      have hne : wit.2 ≠ [] := List.ne_nil_of_mem htmem
      rw [if_neg hne]
      refine hasPosting_indexFields_mono _ _ _ _ _ ?_
      exact hasPosting_tokenFold _ _ _ _ _ _ ((mem_dedupFirst t wit.2).2 htmem)
    · exact ih _ ⟨wit, hw, htmem⟩

/-- C7: re-inserting a document is additive, never a no-op — for every store,
id `d`, record `r`, and token `t` occurring in one of `r`'s (nonempty)
processed fields, inserting `(d, r)` twice leaves a posting for `d` under `t`,
and its weighted frequency is strictly greater than after a single
insertion. -/
theorem c7_reinsertion_additive (st : IndexState) (d : Nat) (r : Doc) (t : String)
    (h : ∃ fp ∈ r.fields, t ∈ fp.2) :
    hasPosting (add_document (add_document st d r) d r).index t d = true ∧
    freqOf (add_document st d r).index t d <
      freqOf (add_document (add_document st d r) d r).index t d := by
  constructor
  · exact hasPosting_indexFields d r.fields (add_document st d r).index t h
  · rw [freqOf_add_document (add_document st d r) d r t]
    have := contribution_pos r.fields t h
    linarith

/-- Witness for C7 at a concrete input: inserting `exDoc` twice under id 0
strictly increases the weighted frequency of the posting for token `cat`. -/
theorem c7_reinsertion_additive_witness :
    hasPosting (add_document (add_document emptyState 0 exDoc) 0 exDoc).index "cat" 0 =
      true ∧
    freqOf (add_document emptyState 0 exDoc).index "cat" 0 <
      freqOf (add_document (add_document emptyState 0 exDoc) 0 exDoc).index "cat" 0 :=
  c7_reinsertion_additive emptyState 0 exDoc "cat" ⟨("title", ["cat"]), by decide⟩

theorem alookup_docsUpdate_self (docs : List (Nat × Doc)) (d : Nat) (r : Doc) :
    alookup (docsUpdate docs d r) d = some r := by
  induction docs with
  | nil => simp [docsUpdate, alookup]
  | cons e rest ih =>
    obtain ⟨k, v⟩ := e
    by_cases hk : k = d
    · simp [docsUpdate, alookup, hk]
    · simp [docsUpdate, alookup, hk, ih]

theorem mem_keys_docsUpdate (docs : List (Nat × Doc)) (d : Nat) (r : Doc) (x : Nat)
    (hx : x ∈ (docsUpdate docs d r).map Prod.fst) :
    x ∈ docs.map Prod.fst ∨ x = d := by
  induction docs with
  | nil => simpa [docsUpdate] using hx
  | cons e rest ih =>
    obtain ⟨k, v⟩ := e
    by_cases hk : k = d
    · subst hk
      rw [docsUpdate, if_pos rfl, List.map_cons] at hx
      rcases List.mem_cons.1 hx with hxd | hxrest
      · exact Or.inr hxd
      · exact Or.inl (List.mem_cons.2 (Or.inr hxrest))
    · rw [docsUpdate, if_neg hk, List.map_cons] at hx
      rcases List.mem_cons.1 hx with hxk | hxrest
      · exact Or.inl (List.mem_cons.2 (Or.inl hxk))
      · rcases ih hxrest with h1 | h2
        · exact Or.inl (List.mem_cons.2 (Or.inr h1))
        · exact Or.inr h2

theorem keys_nodup_docsUpdate (docs : List (Nat × Doc)) (d : Nat) (r : Doc)
    (h : (docs.map Prod.fst).Nodup) : ((docsUpdate docs d r).map Prod.fst).Nodup := by
  induction docs with
  | nil => simp [docsUpdate]
  | cons e rest ih =>
    obtain ⟨k, v⟩ := e
    rw [List.map_cons, List.nodup_cons] at h
    by_cases hk : k = d
    · subst hk
      rw [docsUpdate, if_pos rfl, List.map_cons, List.nodup_cons]
      exact ⟨h.1, h.2⟩
    · rw [docsUpdate, if_neg hk, List.map_cons, List.nodup_cons]
      refine ⟨fun hmem => ?_, ih h.2⟩
      rcases mem_keys_docsUpdate rest d r k hmem with h1 | h2
      · exact h.1 h1
      · exact hk h2

theorem filter_key_eq_nil (docs : List (Nat × Doc)) (d : Nat)
    (h : d ∉ docs.map Prod.fst) : docs.filter (fun p => p.1 == d) = [] := by
  rw [List.filter_eq_nil_iff]
  intro p hp
  simp only [beq_iff_eq]
  intro hcontra
  exact h (hcontra ▸ List.mem_map_of_mem Prod.fst hp)

theorem filter_docsUpdate_length (docs : List (Nat × Doc)) (d : Nat) (r : Doc)
    (h : (docs.map Prod.fst).Nodup) :
    ((docsUpdate docs d r).filter (fun p => p.1 == d)).length = 1 := by
  induction docs with
  | nil => simp [docsUpdate]
  | cons e rest ih =>
    obtain ⟨k, v⟩ := e
    rw [List.map_cons, List.nodup_cons] at h
    by_cases hk : k = d
    · subst hk
      rw [docsUpdate, if_pos rfl, List.filter_cons, if_pos (by simp),
        filter_key_eq_nil rest k h.1]
      rfl
    · rw [docsUpdate, if_neg hk, List.filter_cons, if_neg (by simpa using hk)]
      exact ih h.2

/-- C8: inserting `(d, r1)` and then `(d, r2)` leaves the document table
mapping `d` to `r2` only — the prior record is overwritten, with exactly one
table entry for `d` — and after each insertion the document count equals the
size of the document table. -/
theorem c8_document_table (st : IndexState) (d : Nat) (r1 r2 : Doc)
    (h : (st.documents.map Prod.fst).Nodup) :
    alookup (add_document (add_document st d r1) d r2).documents d = some r2 ∧
    ((add_document (add_document st d r1) d r2).documents.filter
      (fun p => p.1 == d)).length = 1 ∧
    (add_document st d r1).doc_count = (add_document st d r1).documents.length ∧
    (add_document (add_document st d r1) d r2).doc_count =
      (add_document (add_document st d r1) d r2).documents.length := by
  refine ⟨alookup_docsUpdate_self _ _ _, ?_, rfl, rfl⟩
  exact filter_docsUpdate_length _ _ _ (keys_nodup_docsUpdate _ _ _ h)

/-- C5: the post-scoring boosts are applied exactly once per scored document
and in this order — the score is multiplied by `3/2` (1.5) when `title` is
among the document's matched fields, then `5 ×` (number of distinct matched
fields) is added, then the result is multiplied by `1 + term_coverage` — and
the final ranking is a permutation of the boosted scores that is sorted by
boosted score descending. -/
theorem c5_boosts_and_ranking (lg : ℚ → ℚ) (st : IndexState) (tokens : List String)
    (h : tokens ≠ []) :
    List.Sorted (fun a b : Nat × Doc × ℚ => b.2.2 ≤ a.2.2) (searchTokens lg st tokens).1 ∧
    applyBoosts (scoreLoop lg st tokens).termMatches (scoreLoop lg st tokens).matchedFields
        tokens.length (scoreLoop lg st tokens).results =
      (scoreLoop lg st tokens).results.map
        (fun p =>
          (p.1,
            ((if "title" ∈ (alookup (scoreLoop lg st tokens).matchedFields p.1).getD []
                then (3/2) * p.2 else p.2) +
              5 * (((alookup (scoreLoop lg st tokens).matchedFields p.1).getD []).length : ℚ)) *
              (1 + ((alookup (scoreLoop lg st tokens).termMatches p.1).getD 0 : ℚ) /
                (tokens.length : ℚ)))) ∧
    (List.insertionSort byScoreDesc
        (applyBoosts (scoreLoop lg st tokens).termMatches
          (scoreLoop lg st tokens).matchedFields tokens.length
          (scoreLoop lg st tokens).results)).Perm
      (applyBoosts (scoreLoop lg st tokens).termMatches
        (scoreLoop lg st tokens).matchedFields tokens.length
        (scoreLoop lg st tokens).results) := by
  refine ⟨?_, ?_, List.perm_insertionSort byScoreDesc _⟩
  · rw [searchTokens, if_neg h]
    have hsorted : List.Sorted byScoreDesc
        (List.insertionSort byScoreDesc
          (applyBoosts (scoreLoop lg st tokens).termMatches
            (scoreLoop lg st tokens).matchedFields tokens.length
            (scoreLoop lg st tokens).results)) :=
      List.sorted_insertionSort byScoreDesc _
    refine List.pairwise_filterMap.2 (hsorted.imp ?_)
    intro a b hab x hx y hy
    rcases ha : alookup st.documents a.1 with _ | da
    · rw [ha] at hx
      simp at hx
    · rw [ha] at hx
      simp only [Option.mem_def, Option.some.injEq] at hx
      rcases hb : alookup st.documents b.1 with _ | db
      · rw [hb] at hy
        simp at hy
      · rw [hb] at hy
        simp only [Option.mem_def, Option.some.injEq] at hy
        subst hx
        subst hy
        exact hab
  · rw [applyBoosts]
    refine List.map_congr_left ?_
    intro p hp
    dsimp only
    congr 1
    split <;> ring

/-- Witness for C5 at a concrete input: the one-token query list `cat` over
the store `exStateLit`. -/
theorem c5_boosts_and_ranking_witness :
    List.Sorted (fun a b : Nat × Doc × ℚ => b.2.2 ≤ a.2.2)
      (searchTokens (fun x => x) exStateLit ["cat"]).1 ∧
    applyBoosts (scoreLoop (fun x => x) exStateLit ["cat"]).termMatches
        (scoreLoop (fun x => x) exStateLit ["cat"]).matchedFields
        (["cat"] : List String).length (scoreLoop (fun x => x) exStateLit ["cat"]).results =
      (scoreLoop (fun x => x) exStateLit ["cat"]).results.map
        (fun p =>
          (p.1,
            ((if "title" ∈
                  (alookup (scoreLoop (fun x => x) exStateLit ["cat"]).matchedFields
                    p.1).getD []
                then (3/2) * p.2 else p.2) +
              5 * (((alookup (scoreLoop (fun x => x) exStateLit ["cat"]).matchedFields
                  p.1).getD []).length : ℚ)) *
              (1 + ((alookup (scoreLoop (fun x => x) exStateLit ["cat"]).termMatches
                  p.1).getD 0 : ℚ) /
                ((["cat"] : List String).length : ℚ)))) ∧
    (List.insertionSort byScoreDesc
        (applyBoosts (scoreLoop (fun x => x) exStateLit ["cat"]).termMatches
          (scoreLoop (fun x => x) exStateLit ["cat"]).matchedFields
          (["cat"] : List String).length
          (scoreLoop (fun x => x) exStateLit ["cat"]).results)).Perm
      (applyBoosts (scoreLoop (fun x => x) exStateLit ["cat"]).termMatches
        (scoreLoop (fun x => x) exStateLit ["cat"]).matchedFields
        (["cat"] : List String).length
        (scoreLoop (fun x => x) exStateLit ["cat"]).results) :=
  c5_boosts_and_ranking (fun x => x) exStateLit ["cat"] (by decide)

/-- Witness for C8 at a concrete input: inserting `exDoc` then `exDoc2` under
id 0 into the empty store. -/
theorem c8_document_table_witness :
    alookup (add_document (add_document emptyState 0 exDoc) 0 exDoc2).documents 0 =
      some exDoc2 ∧
    ((add_document (add_document emptyState 0 exDoc) 0 exDoc2).documents.filter
      (fun p => p.1 == 0)).length = 1 ∧
    (add_document emptyState 0 exDoc).doc_count =
      (add_document emptyState 0 exDoc).documents.length ∧
    (add_document (add_document emptyState 0 exDoc) 0 exDoc2).doc_count =
      (add_document (add_document emptyState 0 exDoc) 0 exDoc2).documents.length :=
  c8_document_table emptyState 0 exDoc exDoc2 (by decide)

end ConventrySearch
